import Mathlib

set_option maxRecDepth 100000

/-!
Shallow embedding of the smart-money discovery engine of `scanner.py`:
holder-set intersection (`find_intersection`), per-wallet trade replay into
realized PnL (`calculate_wallet_pnl`), and qualification / ranking
(`find_smart_money`).

Modelling conventions:
* Python floats are modelled as exact rationals (`ℚ`); Python's `round(x, n)`
  (round-half-to-even) is modelled exactly by `pyRound`.
* Python dicts (which preserve insertion order) are modelled as association
  lists updated in place; `defaultdict` access that creates an entry appends
  it at the end.
* The HTTP provider is abstracted: the holder provider is a function from a
  mint to its holder list (the code maps every failure of `get_top_holders`
  to `[]`), and the activity provider returns `Option (List HeliusTx)` where
  `none` models a non-200 response, a malformed (non-list) payload, or an
  exception.
* Python's `sort(key=..., reverse=True)` / `sorted(..., reverse=True)` are
  stable descending sorts; they are modelled by `insertionSortB` with a
  non-strict "key greater or equal" test, which is stable in the same way.
-/

/-- Python's banker's rounding of a rational to the nearest integer:
round-half-to-even, as used by `round()` on nonnegative halves and floats. -/
def pyRoundInt (x : ℚ) : ℤ :=
  let n : ℤ := ⌊x⌋
  let f : ℚ := x - n
  if f > 1/2 then n + 1
  else if f < 1/2 then n
  else if n % 2 = 0 then n else n + 1

/-- Python's `round(x, d)` for `d` decimal digits, modelled exactly on `ℚ`. -/
def pyRound (x : ℚ) (d : ℕ) : ℚ := (pyRoundInt (x * 10 ^ d) : ℚ) / 10 ^ d

/-- Stable insert for `insertionSortB`: place `a` before the first element
`b` with `le a b = true`. -/
def orderedInsertB {α : Type} (le : α → α → Bool) (a : α) : List α → List α
  | [] => [a]
  | b :: l => if le a b then a :: b :: l else b :: orderedInsertB le a l

/-- Stable insertion sort with a Boolean "may come before" test, mirroring
the stability of Python's `list.sort` / `sorted`. -/
def insertionSortB {α : Type} (le : α → α → Bool) : List α → List α
  | [] => []
  | a :: l => orderedInsertB le a (insertionSortB le l)

/-- Python `sorted(..., key=keyOf, reverse=True)`: stable sort with
non-increasing keys. -/
def sortByKeyDesc {α : Type} (keyOf : α → ℚ) (l : List α) : List α :=
  insertionSortB (fun a b => decide (keyOf b ≤ keyOf a)) l

/-- Lookup in an association list (Python `dict.get`). -/
def lookupA {α : Type} (l : List (String × α)) (k : String) : Option α :=
  match l with
  | [] => none
  | (k', v) :: rest => if k' = k then some v else lookupA rest k

/-- Python `dict[k] = v`: replace in place if the key exists (its position is
kept), otherwise append the new binding at the end. -/
def setAssoc {α : Type} (l : List (String × α)) (k : String) (v : α) :
    List (String × α) :=
  match l with
  | [] => [(k, v)]
  | (k', v') :: rest =>
      if k' = k then (k, v) :: rest else (k', v') :: setAssoc rest k v

/-- Python `dict.get(k, 0)` for rational-valued dicts. -/
def getQ (l : List (String × ℚ)) (k : String) : ℚ := (lookupA l k).getD 0

/-- One entry of a Helius transaction's `accountData` array. The native
balance change is in lamports. -/
structure AccountDataEntry where
  account : String
  nativeBalanceChange : ℚ
  deriving DecidableEq

/-- One entry of a Helius transaction's `tokenTransfers` array. -/
structure TokenTransfer where
  mint : String
  fromUserAccount : String
  toUserAccount : String
  tokenAmount : ℚ
  deriving DecidableEq

/-- A Helius enhanced-API transaction, restricted to the fields
`calculate_wallet_pnl` reads. -/
structure HeliusTx where
  txType : String
  timestamp : ℤ
  accountData : List AccountDataEntry
  tokenTransfers : List TokenTransfer
  deriving DecidableEq

/-- The kind of a classified trade leg. -/
inductive TradeKind where
  | buy
  | sell
  deriving DecidableEq

/-- One classified trade appended to the `trades` list. -/
structure Trade where
  kind : TradeKind
  mint : String
  sol : ℚ
  amount : ℚ
  ts : ℤ
  deriving DecidableEq

/-- Per-token accumulator of `token_pnl`:
`{"buy_sol", "sell_sol", "buy_amount", "sell_amount"}`. -/
structure TokenAgg where
  buySol : ℚ
  sellSol : ℚ
  buyAmount : ℚ
  sellAmount : ℚ
  deriving DecidableEq

/-- The `defaultdict` default value for `token_pnl`. -/
def TokenAgg.zero : TokenAgg := ⟨0, 0, 0, 0⟩

/-- Python `token_pnl[mint]` access followed by a field update: fetch the
current aggregate (creating the zero entry if absent, at the end, as a
`defaultdict` does) and replace it by `f` of it. -/
def updTokenPnl (l : List (String × TokenAgg)) (k : String)
    (f : TokenAgg → TokenAgg) : List (String × TokenAgg) :=
  match l with
  | [] => [(k, f TokenAgg.zero)]
  | (k', v) :: rest =>
      if k' = k then (k, f v) :: rest else (k', v) :: updTokenPnl rest k f

/-- The mutable state of the replay loop in `calculate_wallet_pnl`:
`trades`, `token_pnl` and `current_holdings`. -/
structure ReplayState where
  trades : List Trade
  tokenPnl : List (String × TokenAgg)
  holdings : List (String × ℚ)
  deriving DecidableEq

/-- The state before any transaction is processed. -/
def ReplayState.init : ReplayState := ⟨[], [], []⟩

/-- The body of the `for transfer in tx.get("tokenTransfers", [])` loop:
skip empty-mint or zero-amount transfers, classify a BUY when the wallet
received the token and spent SOL, a SELL when it sent the token and received
SOL, and ignore everything else. -/
def processTransfer (wallet : String) (solChange : ℚ) (ts : ℤ)
    (st : ReplayState) (tr : TokenTransfer) : ReplayState :=
  if tr.mint = "" ∨ tr.tokenAmount = 0 then st
  else if tr.toUserAccount = wallet ∧ solChange < 0 then
    let costSol := |solChange|
    { trades := st.trades ++ [⟨TradeKind.buy, tr.mint, costSol, tr.tokenAmount, ts⟩]
      tokenPnl := updTokenPnl st.tokenPnl tr.mint (fun a =>
        { a with buySol := a.buySol + costSol,
                 buyAmount := a.buyAmount + tr.tokenAmount })
      holdings := setAssoc st.holdings tr.mint
        (getQ st.holdings tr.mint + tr.tokenAmount) }
  else if tr.fromUserAccount = wallet ∧ solChange > 0 then
    let recvSol := solChange
    { trades := st.trades ++ [⟨TradeKind.sell, tr.mint, recvSol, tr.tokenAmount, ts⟩]
      tokenPnl := updTokenPnl st.tokenPnl tr.mint (fun a =>
        { a with sellSol := a.sellSol + recvSol,
                 sellAmount := a.sellAmount + tr.tokenAmount })
      holdings := setAssoc st.holdings tr.mint
        (max 0 (getQ st.holdings tr.mint - tr.tokenAmount)) }
  else st

/-- SOL change of the wallet in one transaction: the loop over `accountData`
overwrites `sol_change` at each matching entry (last match wins, `0` when no
entry matches), converting lamports to SOL. -/
def solChangeOf (wallet : String) (tx : HeliusTx) : ℚ :=
  tx.accountData.foldl
    (fun acc c => if c.account = wallet then c.nativeBalanceChange / 1000000000 else acc) 0

/-- Process one transaction: compute the wallet's SOL change, then fold the
transfer classifier over the token transfers. -/
def processTx (wallet : String) (st : ReplayState) (tx : HeliusTx) : ReplayState :=
  tx.tokenTransfers.foldl (processTransfer wallet (solChangeOf wallet tx) tx.timestamp) st

/-- Replay the fetched transaction window in order. -/
def replayTxs (wallet : String) (txs : List HeliusTx) : ReplayState :=
  txs.foldl (processTx wallet) ReplayState.init

/-- One row of the per-token breakdown in the PnL report. -/
structure TokenRow where
  mint : String
  boughtSol : ℚ
  soldSol : ℚ
  pnlSol : ℚ
  roiPct : ℚ
  holding : ℚ
  win : Bool
  deriving DecidableEq

/-- The body of the `for mint, data in token_pnl.items()` loop of
`calculate_wallet_pnl`: `total_pnl` is increased for every token; a breakdown
row (and a possible win) is only produced for tokens with `bought > 0`. -/
def buildRowsStep (holdings : List (String × ℚ)) (acc : List TokenRow × ℕ × ℚ)
    (e : String × TokenAgg) : List TokenRow × ℕ × ℚ :=
  let bought := e.2.buySol
  let sold := e.2.sellSol
  let pnl := sold - bought
  let total := acc.2.2 + pnl
  if 0 < bought then
    let roiPct := (sold - bought) / bought * 100
    let isWin := decide (0 < pnl)
    let wins := if isWin then acc.2.1 + 1 else acc.2.1
    (acc.1 ++ [{ mint := e.1, boughtSol := pyRound bought 4,
                 soldSol := pyRound sold 4, pnlSol := pyRound pnl 4,
                 roiPct := pyRound roiPct 1,
                 holding := pyRound (getQ holdings e.1) 2,
                 win := isWin }], wins, total)
  else (acc.1, acc.2.1, total)

/-- The `for mint, data in token_pnl.items()` loop, accumulating
`(token_reports, wins, total_pnl)` from `([], 0, 0.0)`. -/
def buildRows (holdings : List (String × ℚ)) (ledger : List (String × TokenAgg)) :
    List TokenRow × ℕ × ℚ :=
  ledger.foldl (buildRowsStep holdings) ([], 0, 0)

/-- The dict returned by `calculate_wallet_pnl` on success. `currentHoldings`
keeps only strictly positive holdings, as the dict comprehension does. -/
structure PnlReport where
  totalPnlSol : ℚ
  winRate : ℚ
  wins : ℕ
  totalPositions : ℕ
  tokenBreakdown : List TokenRow
  currentHoldings : List (String × ℚ)
  tradeCount : ℕ
  deriving DecidableEq

/-- Assemble the report from the final replay state: round the total, sort the
breakdown by rounded per-token PnL descending (stable), and compute the win
rate over `len(token_pnl)` positions. -/
def buildReport (st : ReplayState) : PnlReport :=
  let rows := buildRows st.holdings st.tokenPnl
  let totalTrades := st.tokenPnl.length
  let winRate : ℚ := if 0 < totalTrades then (rows.2.1 : ℚ) / (totalTrades : ℚ) else 0
  { totalPnlSol := pyRound rows.2.2 4
    winRate := pyRound winRate 3
    wins := rows.2.1
    totalPositions := totalTrades
    tokenBreakdown := sortByKeyDesc TokenRow.pnlSol rows.1
    currentHoldings := st.holdings.filter (fun p => decide (0 < p.2))
    tradeCount := st.trades.length }

/-- `calculate_wallet_pnl`: `none` models every failure path (non-200
response, malformed or empty payload, exception); an empty transaction list
and a replay with zero classified trades also return `None`. The `mints`
argument is accepted but, as in the source, never used. -/
def calculate_wallet_pnl (wallet : String) (mints : List String)
    (resp : Option (List HeliusTx)) : Option PnlReport :=
  match resp with
  | none => none
  | some txs =>
      if txs = [] then none
      else
        let st := replayTxs wallet txs
        if st.trades = [] then none else some (buildReport st)

/-- Known program addresses excluded from the intersection (`EXCLUDED_PROGRAMS`). -/
def EXCLUDED_PROGRAMS : List String :=
  [ "TokenkegQfeZyiNwAJbNbGKPFXCWuBvf9Ss623VQ5DA",
    "11111111111111111111111111111111",
    "TokenzQdBNbLqP5VEhdkAS6EPFLC1PHnBqCXEpPxuEb",
    "ATokenGPvbdGVxr1b2hvZbsiqW5xWH25efTNsLJe1bfE",
    "So11111111111111111111111111111111111111112" ]

/-- Python `wallet_to_mints[wallet].append(mint)` on the insertion-ordered
`defaultdict(list)`: append `m` to `w`'s list in place, or create the entry
`(w, [m])` at the end. -/
def appendMint (d : List (String × List String)) (w m : String) :
    List (String × List String) :=
  match d with
  | [] => [(w, [m])]
  | (w', ms) :: rest =>
      if w' = w then (w, ms ++ [m]) :: rest
      else (w', ms) :: appendMint rest w m

/-- The inner-loop body of `find_intersection`: skip wallets shorter than 32
characters or in the excluded-program set, otherwise append the mint to the
wallet's list. -/
def addHolding (d : List (String × List String)) (w m : String) :
    List (String × List String) :=
  if w.length < 32 ∨ w ∈ EXCLUDED_PROGRAMS then d else appendMint d w m

/-- The `wallet_to_mints` accumulation of `find_intersection`: the nested
`for mint, holders in zip(mints, holder_lists): for wallet in holders` loops. -/
def walletToMints (holder_lists : List (List String)) (mints : List String) :
    List (String × List String) :=
  (mints.zip holder_lists).foldl
    (fun d p => p.2.foldl (fun d' w => addHolding d' w p.1) d) []

/-- `find_intersection`: keep wallets whose mint list has at least
`min_appearances` entries, then sort by number of mints held, descending and
stable (Python `sorted(..., reverse=True)`). -/
def find_intersection (holder_lists : List (List String)) (mints : List String)
    (min_appearances : ℕ := 2) : List (String × List String) :=
  let common := (walletToMints holder_lists mints).filter
    (fun e => decide (min_appearances ≤ e.2.length))
  sortByKeyDesc (fun e => (e.2.length : ℚ)) common

/-- A provider fetch issued by `find_smart_money`, in issue order. -/
inductive FetchReq where
  | holderFetch (mint : String)
  | activityFetch (wallet : String)
  deriving DecidableEq

/-- An entry of the `qualified` list: the wallet's PnL dict with the
`"wallet"` and `"tokens_held"` keys added. -/
structure QualifiedEntry where
  wallet : String
  tokensHeld : List String
  pnl : PnlReport
  deriving DecidableEq

/-- The success report of `find_smart_money`. -/
structure SMReport where
  mintsAnalyzed : List String
  totalCommonWallets : ℕ
  qualifiedWallets : List QualifiedEntry
  minWinRate : ℚ
  minPnlSol : ℚ
  deriving DecidableEq

/-- The result of `find_smart_money`: the `{"error": "Please provide at least
2 contract addresses."}` dict, the `{"error": "No common wallets found...",
"holder_counts": ...}` dict, or the success report. -/
inductive SMResult where
  | inputError
  | noCommon (holderCounts : List ℕ)
  | report (r : SMReport)
  deriving DecidableEq

/-- The mint list actually analyzed: truncated to its first 5 entries when
more than 5 are supplied. -/
def smMints (mints : List String) : List String :=
  if 5 < mints.length then mints.take 5 else mints

/-- Step 2 of `find_smart_money`: the intersection of the fetched holder
lists, with `min_appearances = 2`. -/
def smCommon (mints : List String) (holders : String → List String) :
    List (String × List String) :=
  find_intersection ((smMints mints).map holders) (smMints mints) 2

/-- Step 3 preparation: `list(common.keys())[:30]`. -/
def smWallets (mints : List String) (holders : String → List String) :
    List String :=
  ((smCommon mints holders).map Prod.fst).take 30

/-- Step 3: one activity fetch and PnL reconstruction per candidate wallet;
each wallet's result depends only on its own activity response. -/
def smPnls (mints : List String) (holders : String → List String)
    (activity : String → Option (List HeliusTx)) : List (Option PnlReport) :=
  (smWallets mints holders).map
    (fun w => calculate_wallet_pnl w (smMints mints) (activity w))

/-- Step 4: keep non-null PnL results passing both thresholds, attaching the
wallet and its held tokens. -/
def smQualified (mints : List String) (holders : String → List String)
    (activity : String → Option (List HeliusTx)) (minWinRate minPnlSol : ℚ) :
    List QualifiedEntry :=
  ((smWallets mints holders).zip (smPnls mints holders activity)).filterMap
    (fun p =>
      match p.2 with
      | none => none
      | some r =>
          if minWinRate ≤ r.winRate ∧ minPnlSol ≤ r.totalPnlSol then
            some ⟨p.1, (lookupA (smCommon mints holders) p.1).getD [], r⟩
          else none)

/-- The `qualified` list after the in-place stable sort by `total_pnl_sol`
descending. -/
def smSorted (mints : List String) (holders : String → List String)
    (activity : String → Option (List HeliusTx)) (minWinRate minPnlSol : ℚ) :
    List QualifiedEntry :=
  sortByKeyDesc (fun e => e.pnl.totalPnlSol)
    (smQualified mints holders activity minWinRate minPnlSol)

/-- `find_smart_money`, with the sequence of provider fetches it issues as a
trace: fewer than 2 mints are rejected before any fetch; one holder fetch per
analyzed mint; on a nonempty intersection, one activity fetch per candidate
wallet (at most 30); the report packages the top 10 qualified wallets. -/
def find_smart_money (mints : List String) (holders : String → List String)
    (activity : String → Option (List HeliusTx))
    (min_win_rate : ℚ := 3/5) (min_pnl_sol : ℚ := 10) :
    SMResult × List FetchReq :=
  if mints.length < 2 then (SMResult.inputError, [])
  else
    let mintsA := smMints mints
    let holderTrace := mintsA.map FetchReq.holderFetch
    if smCommon mints holders = [] then
      (SMResult.noCommon ((mintsA.map holders).map List.length), holderTrace)
    else
      (SMResult.report
        { mintsAnalyzed := mintsA
          totalCommonWallets := (smCommon mints holders).length
          qualifiedWallets :=
            (smSorted mints holders activity min_win_rate min_pnl_sol).take 10
          minWinRate := min_win_rate
          minPnlSol := min_pnl_sol },
       holderTrace ++ (smWallets mints holders).map FetchReq.activityFetch)

/-- Exclusion predicate of the inner loop of `find_intersection`:
`len(wallet) < 32 or wallet in EXCLUDED_PROGRAMS`. -/
def excludedW (w : String) : Prop := w.length < 32 ∨ w ∈ EXCLUDED_PROGRAMS

instance (w : String) : Decidable (excludedW w) :=
  inferInstanceAs (Decidable (w.length < 32 ∨ w ∈ EXCLUDED_PROGRAMS))

/-- The stream of `(wallet, mint)` pairs visited by the nested loops of
`find_intersection`, in visit order. -/
def holderEvents (holder_lists : List (List String)) (mints : List String) :
    List (String × String) :=
  (mints.zip holder_lists).flatMap (fun p => p.2.map (fun w => (w, p.1)))

/-- The stream of wallet occurrences visited by `find_intersection`, in
visit order. -/
def walletStream (holder_lists : List (List String)) (mints : List String) :
    List String :=
  (mints.zip holder_lists).flatMap Prod.snd

/-- First-seen order: the list of distinct elements of `ws` in order of
first occurrence (the key order of an insertion-ordered dict). -/
def firstSeenKeys (ws : List String) : List String :=
  ws.foldl (fun acc w => if w ∈ acc then acc else acc ++ [w]) []

/-- The list of mints whose holder list contains `w`, in mint order: the
claim's "tokens it holds". -/
def heldMintsOf (holder_lists : List (List String)) (mints : List String)
    (w : String) : List String :=
  (mints.zip holder_lists).filterMap (fun p => if w ∈ p.2 then some p.1 else none)

/-- Stated from the claim for comparison ("realized PnL summed only over
tokens with at least one BUY leg", with the report's 4-digit rounding): the
sum of `soldNative - boughtNative` restricted to ledger tokens that have at
least one BUY trade. -/
def specTotalPnlOverBuyTokens (st : ReplayState) : ℚ :=
  pyRound
    ((st.tokenPnl.filter (fun e =>
        st.trades.any (fun t => decide (t.kind = TradeKind.buy) && decide (t.mint = e.1)))).map
      (fun e => e.2.sellSol - e.2.buySol)).sum 4

/-- Stated from the claim for comparison ("the win-rate denominator counts
exactly the tokens with at least one BUY leg"): the number of ledger tokens
with at least one BUY trade. -/
def specBuyTokenCount (st : ReplayState) : ℕ :=
  (st.tokenPnl.filter (fun e =>
    st.trades.any (fun t => decide (t.kind = TradeKind.buy) && decide (t.mint = e.1)))).length

/-- Concrete 34-character wallet address for witnesses. -/
def tWallet : String := "WalletAAAAAAAAAAAAAAAAAAAAAAAAAAAA"

/-- Concrete transaction: `tWallet` receives 100 units of mint `MA` and its
native balance drops by 1 SOL (a BUY). -/
def tBuyTx : HeliusTx :=
  { txType := "SWAP", timestamp := 1,
    accountData := [⟨tWallet, -1000000000⟩],
    tokenTransfers := [⟨"MA", "pool", tWallet, 100⟩] }

/-- Concrete transaction: `tWallet` sends 100 units of mint `MA` and its
native balance rises by 12 SOL (a SELL). -/
def tSellTx : HeliusTx :=
  { txType := "SWAP", timestamp := 2,
    accountData := [⟨tWallet, 12000000000⟩],
    tokenTransfers := [⟨"MA", tWallet, "pool", 100⟩] }

/-- Concrete holder provider: `tWallet` holds both `MA` and `MB`. -/
def tHolders : String → List String :=
  fun m => if m = "MA" ∨ m = "MB" then [tWallet] else []

/-- Concrete activity provider: only `tWallet` has activity, one profitable
round trip. -/
def tActivity : String → Option (List HeliusTx) :=
  fun w => if w = tWallet then some [tBuyTx, tSellTx] else none

/-- The PnL report `calculate_wallet_pnl` produces for `tWallet` under
`tActivity`: bought 1 SOL, sold 12 SOL, one winning position. -/
def tPnl : PnlReport :=
  { totalPnlSol := 11, winRate := 1, wins := 1, totalPositions := 1,
    tokenBreakdown := [{ mint := "MA", boughtSol := 1, soldSol := 12,
                         pnlSol := 11, roiPct := 1100, holding := 0,
                         win := true }],
    currentHoldings := [], tradeCount := 2 }

/-- The report `find_smart_money ["MA","MB"] tHolders tActivity` produces. -/
def tReport : SMReport :=
  { mintsAnalyzed := ["MA", "MB"], totalCommonWallets := 1,
    qualifiedWallets := [⟨tWallet, ["MA", "MB"], tPnl⟩],
    minWinRate := 3/5, minPnlSol := 10 }

/-- Concrete sell-only transaction: wallet `W` sends 5 units of token `T`
and gains 1 SOL, with no BUY leg anywhere. -/
def cSellOnlyTx : HeliusTx :=
  { txType := "TRANSFER", timestamp := 0,
    accountData := [⟨"W", 1000000000⟩],
    tokenTransfers := [⟨"T", "W", "X", 5⟩] }

/-- Concrete sell-only transaction for the win-rate counterexample: wallet
`W2` sends 7 units of token `T2` and gains 2 SOL. -/
def cSellOnlyTx2 : HeliusTx :=
  { txType := "TRANSFER", timestamp := 3,
    accountData := [⟨"W2", 2000000000⟩],
    tokenTransfers := [⟨"T2", "W2", "X", 7⟩] }

/-- Concrete unclassifiable transaction: a pure token transfer with zero
native balance change, so neither the BUY nor the SELL pattern matches. -/
def cAirdropTx : HeliusTx :=
  { txType := "TRANSFER", timestamp := 4,
    accountData := [],
    tokenTransfers := [⟨"T", "A", "W3", 3⟩] }

/-- Concrete BUY of 5 units of `T` for wallet `W` (1 SOL spent). -/
def cClampBuyTx : HeliusTx :=
  { txType := "SWAP", timestamp := 5,
    accountData := [⟨"W", -1000000000⟩],
    tokenTransfers := [⟨"T", "X", "W", 5⟩] }

/-- Concrete SELL of 10 units of `T` for wallet `W` (1 SOL received): more
than the tracked holding of 5, so the holding clamps at zero. -/
def cClampSellTx : HeliusTx :=
  { txType := "SWAP", timestamp := 6,
    accountData := [⟨"W", 1000000000⟩],
    tokenTransfers := [⟨"T", "W", "X", 10⟩] }

theorem orderedInsertB_perm {α : Type} (le : α → α → Bool) (a : α) :
    ∀ l : List α, (orderedInsertB le a l).Perm (a :: l)
  | [] => List.Perm.refl _
  | b :: t => by
      by_cases h : le a b
      · simp [orderedInsertB, h]
      · simp only [orderedInsertB, h, Bool.false_eq_true, if_false]
        exact ((orderedInsertB_perm le a t).cons b).trans (List.Perm.swap a b t)

theorem insertionSortB_perm {α : Type} (le : α → α → Bool) :
    ∀ l : List α, (insertionSortB le l).Perm l
  | [] => List.Perm.refl _
  | a :: t =>
      (orderedInsertB_perm le a (insertionSortB le t)).trans
        ((insertionSortB_perm le t).cons a)

theorem mem_orderedInsertB {α : Type} (le : α → α → Bool) (a x : α) (l : List α) :
    x ∈ orderedInsertB le a l ↔ x = a ∨ x ∈ l := by
  rw [(orderedInsertB_perm le a l).mem_iff]
  simp

theorem sortByKeyDesc_perm {α : Type} (keyOf : α → ℚ) (l : List α) :
    (sortByKeyDesc keyOf l).Perm l :=
  insertionSortB_perm _ l

theorem pairwise_orderedInsertB {α : Type} (keyOf : α → ℚ) (a : α) (l : List α)
    (h : l.Pairwise (fun x y => keyOf y ≤ keyOf x)) :
    (orderedInsertB (fun x y => decide (keyOf y ≤ keyOf x)) a l).Pairwise
      (fun x y => keyOf y ≤ keyOf x) := by
  induction l with
  | nil => simp [orderedInsertB]
  | cons b t ih =>
      rw [List.pairwise_cons] at h
      by_cases hab : keyOf b ≤ keyOf a
      · rw [orderedInsertB, if_pos (decide_eq_true hab), List.pairwise_cons]
        refine ⟨?_, List.pairwise_cons.mpr h⟩
        intro x hx
        rcases List.mem_cons.mp hx with rfl | hx'
        · exact hab
        · exact (h.1 x hx').trans hab
      · have hba : keyOf a ≤ keyOf b := le_of_lt (not_le.mp hab)
        rw [orderedInsertB, if_neg (by simpa using hab), List.pairwise_cons]
        refine ⟨?_, ih h.2⟩
        intro x hx
        rcases (mem_orderedInsertB _ a x t).mp hx with rfl | hx'
        · exact hba
        · exact h.1 x hx'

theorem sortByKeyDesc_pairwise {α : Type} (keyOf : α → ℚ) (l : List α) :
    (sortByKeyDesc keyOf l).Pairwise (fun x y => keyOf y ≤ keyOf x) := by
  induction l with
  | nil => simp [sortByKeyDesc, insertionSortB]
  | cons a t ih => exact pairwise_orderedInsertB keyOf a _ ih

theorem filter_orderedInsertB {α : Type} (keyOf : α → ℚ) (v : ℚ) (a : α)
    (l : List α) :
    (orderedInsertB (fun x y => decide (keyOf y ≤ keyOf x)) a l).filter
        (fun x => decide (keyOf x = v)) =
      if keyOf a = v then a :: l.filter (fun x => decide (keyOf x = v))
      else l.filter (fun x => decide (keyOf x = v)) := by
  induction l with
  | nil =>
      by_cases hav : keyOf a = v <;> simp [orderedInsertB, List.filter, hav]
  | cons b t ih =>
      by_cases hab : keyOf b ≤ keyOf a
      · rw [orderedInsertB, if_pos (decide_eq_true hab)]
        by_cases hav : keyOf a = v <;> simp [List.filter_cons, hav]
      · have hlt : keyOf a < keyOf b := not_le.mp hab
        rw [orderedInsertB, if_neg (by simpa using hab)]
        by_cases hbv : keyOf b = v
        · have hav : ¬ keyOf a = v := by
            intro hav; rw [hav, ← hbv] at hlt; exact lt_irrefl _ hlt
          simp [List.filter_cons, hbv, hav, ih]
        · by_cases hav : keyOf a = v <;> simp [List.filter_cons, hbv, hav, ih]

theorem sortByKeyDesc_filter {α : Type} (keyOf : α → ℚ) (v : ℚ) (l : List α) :
    (sortByKeyDesc keyOf l).filter (fun x => decide (keyOf x = v)) =
      l.filter (fun x => decide (keyOf x = v)) := by
  induction l with
  | nil => rfl
  | cons a t ih =>
      show (orderedInsertB _ a (sortByKeyDesc keyOf t)).filter _ = _
      rw [filter_orderedInsertB keyOf v a (sortByKeyDesc keyOf t), ih,
        List.filter_cons]
      by_cases hav : keyOf a = v <;> simp [hav]

theorem lookupA_mem {α : Type} {l : List (String × α)} {k : String} {v : α}
    (h : lookupA l k = some v) : (k, v) ∈ l := by
  induction l with
  | nil => simp [lookupA] at h
  | cons e rest ih =>
      obtain ⟨k', v'⟩ := e
      by_cases hk : k' = k
      · subst hk
        simp [lookupA] at h
        simp [h]
      · simp only [lookupA, hk, if_false] at h
        exact List.mem_cons_of_mem _ (ih h)

theorem mem_lookupA {α : Type} {l : List (String × α)} {k : String} {v : α}
    (hnd : (l.map Prod.fst).Nodup) (h : (k, v) ∈ l) : lookupA l k = some v := by
  induction l with
  | nil => simp at h
  | cons e rest ih =>
      obtain ⟨k', v'⟩ := e
      simp only [List.map_cons, List.nodup_cons] at hnd
      rcases List.mem_cons.mp h with heq | hmem
      · cases heq
        simp [lookupA]
      · have hk : k' ≠ k := by
          intro he
          subst he
          exact hnd.1 (List.mem_map.mpr ⟨(k', v), hmem, rfl⟩)
        simp only [lookupA, hk, if_false]
        exact ih hnd.2 hmem

theorem lookupA_isSome_iff {α : Type} (l : List (String × α)) (k : String) :
    (lookupA l k).isSome = true ↔ k ∈ l.map Prod.fst := by
  induction l with
  | nil => simp [lookupA]
  | cons e rest ih =>
      obtain ⟨k', v'⟩ := e
      by_cases hk : k' = k
      · subst hk; simp [lookupA]
      · simp [lookupA, hk, ih, Ne.symm hk]

theorem mem_setAssoc {α : Type} {p : String × α} (l : List (String × α))
    (k : String) (v : α) (h : p ∈ setAssoc l k v) : p = (k, v) ∨ p ∈ l := by
  induction l with
  | nil => simp [setAssoc] at h; simp [h]
  | cons e rest ih =>
      obtain ⟨k', v'⟩ := e
      by_cases hk : k' = k
      · subst hk
        simp only [setAssoc, if_pos rfl] at h
        rcases List.mem_cons.mp h with heq | hmem
        · exact Or.inl heq
        · exact Or.inr (List.mem_cons_of_mem _ hmem)
      · simp only [setAssoc, hk, if_false] at h
        rcases List.mem_cons.mp h with heq | hmem
        · exact Or.inr (heq ▸ List.mem_cons_self _ _)
        · rcases ih hmem with h1 | h2
          · exact Or.inl h1
          · exact Or.inr (List.mem_cons_of_mem _ h2)

theorem getQ_nonneg {l : List (String × ℚ)} (h : ∀ p ∈ l, 0 ≤ p.2)
    (k : String) : 0 ≤ getQ l k := by
  unfold getQ
  cases hl : lookupA l k with
  | none => simp
  | some v =>
      simpa using h (k, v) (lookupA_mem hl)

theorem processTransfer_holdings_nonneg (wallet : String) (solChange : ℚ)
    (ts : ℤ) (st : ReplayState) (tr : TokenTransfer)
    (hamt : 0 ≤ tr.tokenAmount) (h : ∀ p ∈ st.holdings, 0 ≤ p.2) :
    ∀ p ∈ (processTransfer wallet solChange ts st tr).holdings, 0 ≤ p.2 := by
  unfold processTransfer
  split
  · exact h
  · split
    · intro p hp
      rcases mem_setAssoc _ _ _ hp with rfl | hmem
      · exact add_nonneg (getQ_nonneg h tr.mint) hamt
      · exact h p hmem
    · split
      · intro p hp
        rcases mem_setAssoc _ _ _ hp with rfl | hmem
        · exact le_max_left 0 _
        · exact h p hmem
      · exact h

theorem foldl_processTransfer_nonneg (wallet : String) (sc : ℚ) (ts : ℤ) :
    ∀ (trs : List TokenTransfer) (st : ReplayState),
      (∀ tr ∈ trs, 0 ≤ tr.tokenAmount) → (∀ p ∈ st.holdings, 0 ≤ p.2) →
      ∀ p ∈ (trs.foldl (processTransfer wallet sc ts) st).holdings, 0 ≤ p.2
  | [], _, _, h => h
  | tr :: rest, st, hamt, h =>
      foldl_processTransfer_nonneg wallet sc ts rest _
        (fun t ht => hamt t (List.mem_cons_of_mem _ ht))
        (processTransfer_holdings_nonneg wallet sc ts st tr
          (hamt tr (List.mem_cons_self _ _)) h)

theorem processTx_holdings_nonneg (wallet : String) (st : ReplayState)
    (tx : HeliusTx) (hamt : ∀ tr ∈ tx.tokenTransfers, 0 ≤ tr.tokenAmount)
    (h : ∀ p ∈ st.holdings, 0 ≤ p.2) :
    ∀ p ∈ (processTx wallet st tx).holdings, 0 ≤ p.2 :=
  foldl_processTransfer_nonneg wallet (solChangeOf wallet tx) tx.timestamp
    tx.tokenTransfers st hamt h

theorem foldl_processTx_nonneg (wallet : String) :
    ∀ (txs : List HeliusTx) (st : ReplayState),
      (∀ tx ∈ txs, ∀ tr ∈ tx.tokenTransfers, 0 ≤ tr.tokenAmount) →
      (∀ p ∈ st.holdings, 0 ≤ p.2) →
      ∀ p ∈ (txs.foldl (processTx wallet) st).holdings, 0 ≤ p.2
  | [], _, _, h => h
  | tx :: rest, st, hamt, h =>
      foldl_processTx_nonneg wallet rest _
        (fun t ht => hamt t (List.mem_cons_of_mem _ ht))
        (processTx_holdings_nonneg wallet st tx
          (hamt tx (List.mem_cons_self _ _)) h)

theorem replayTxs_holdings_nonneg (wallet : String) (txs : List HeliusTx)
    (hamt : ∀ tx ∈ txs, ∀ tr ∈ tx.tokenTransfers, 0 ≤ tr.tokenAmount) :
    ∀ p ∈ (replayTxs wallet txs).holdings, 0 ≤ p.2 :=
  foldl_processTx_nonneg wallet txs ReplayState.init hamt
    (by intro p hp; simp [ReplayState.init] at hp)

theorem foldl_buildRowsStep_total (holdings : List (String × ℚ)) :
    ∀ (ledger : List (String × TokenAgg)) (acc : List TokenRow × ℕ × ℚ),
      (ledger.foldl (buildRowsStep holdings) acc).2.2 =
        acc.2.2 + (ledger.map (fun e => e.2.sellSol - e.2.buySol)).sum
  | [], acc => by simp
  | e :: rest, acc => by
      rw [List.foldl_cons, foldl_buildRowsStep_total holdings rest _]
      have hstep : (buildRowsStep holdings acc e).2.2 =
          acc.2.2 + (e.2.sellSol - e.2.buySol) := by
        by_cases hb : 0 < e.2.buySol <;> simp [buildRowsStep, hb]
      rw [hstep, List.map_cons, List.sum_cons]
      ring

theorem buildRows_total (holdings : List (String × ℚ))
    (ledger : List (String × TokenAgg)) :
    (buildRows holdings ledger).2.2 =
      (ledger.map (fun e => e.2.sellSol - e.2.buySol)).sum := by
  unfold buildRows
  rw [foldl_buildRowsStep_total]
  simp

theorem foldl_buildRowsStep_wins (holdings : List (String × ℚ)) :
    ∀ (ledger : List (String × TokenAgg)) (acc : List TokenRow × ℕ × ℚ),
      (ledger.foldl (buildRowsStep holdings) acc).2.1 =
        acc.2.1 + (ledger.filter (fun e =>
          decide (0 < e.2.buySol ∧ 0 < e.2.sellSol - e.2.buySol))).length
  | [], acc => by simp
  | e :: rest, acc => by
      rw [List.foldl_cons, foldl_buildRowsStep_wins holdings rest _]
      by_cases hb : 0 < e.2.buySol
      · by_cases hp : e.2.buySol < e.2.sellSol
        · have hp2 : 0 < e.2.sellSol - e.2.buySol := sub_pos.mpr hp
          simp [buildRowsStep, hb, hp, hp2, List.filter_cons]
          omega
        · have hp2 : ¬ 0 < e.2.sellSol - e.2.buySol := by
            rw [sub_pos]; exact hp
          simp [buildRowsStep, hb, hp, hp2, List.filter_cons]
      · have hnot : ¬ (0 < e.2.buySol ∧ 0 < e.2.sellSol - e.2.buySol) :=
          fun hc => hb hc.1
        simp [buildRowsStep, hb, hnot, List.filter_cons]

theorem buildRows_wins (holdings : List (String × ℚ))
    (ledger : List (String × TokenAgg)) :
    (buildRows holdings ledger).2.1 =
      (ledger.filter (fun e =>
        decide (0 < e.2.buySol ∧ 0 < e.2.sellSol - e.2.buySol))).length := by
  unfold buildRows
  rw [foldl_buildRowsStep_wins]
  simp

theorem calculate_wallet_pnl_eq_some {wallet : String} {mints : List String}
    {txs : List HeliusTx} {r : PnlReport}
    (h : calculate_wallet_pnl wallet mints (some txs) = some r) :
    r = buildReport (replayTxs wallet txs) := by
  simp only [calculate_wallet_pnl] at h
  split_ifs at h
  exact (Option.some.inj h).symm

/-- C1 (amended): the reported total realized PnL is the (4-digit rounded)
sum of `soldNative - boughtNative` over ALL tokens touched by a classified
leg, not only over tokens with at least one BUY leg; a token with sell legs
but no buy leg contributes its full sell proceeds. -/
theorem c1_total_pnl_sums_all_tokens (wallet : String) (mints : List String)
    (txs : List HeliusTx) (r : PnlReport)
    (h : calculate_wallet_pnl wallet mints (some txs) = some r) :
    r.totalPnlSol =
      pyRound (((replayTxs wallet txs).tokenPnl.map
        (fun e => e.2.sellSol - e.2.buySol)).sum) 4 := by
  rw [calculate_wallet_pnl_eq_some h]
  simp only [buildReport]
  rw [buildRows_total]

/-- Witness for C1 (amended): the round trip of `tWallet` (bought 1 SOL,
sold 12 SOL of mint MA) reports `totalPnlSol = 11`. -/
theorem c1_total_pnl_sums_all_tokens_witness :
    tPnl.totalPnlSol =
      pyRound (((replayTxs tWallet [tBuyTx, tSellTx]).tokenPnl.map
        (fun e => e.2.sellSol - e.2.buySol)).sum) 4 :=
  c1_total_pnl_sums_all_tokens tWallet [] [tBuyTx, tSellTx] tPnl (by with_unfolding_all decide)

/-- C1 counterexample: a wallet whose only classified leg is a SELL of token
`T` for 1 SOL. The claim says such a token contributes nothing (spec sum is
0), but the code reports a total realized PnL of 1. -/
theorem c1_counterexample :
    (calculate_wallet_pnl "W" [] (some [cSellOnlyTx])).map PnlReport.totalPnlSol = some 1
    ∧ specTotalPnlOverBuyTokens (replayTxs "W" [cSellOnlyTx]) = 0
    ∧ (calculate_wallet_pnl "W" [] (some [cSellOnlyTx])).map PnlReport.totalPnlSol ≠
        some (specTotalPnlOverBuyTokens (replayTxs "W" [cSellOnlyTx])) :=
  ⟨by with_unfolding_all decide, by with_unfolding_all decide, by with_unfolding_all decide⟩

/-- C2 (amended): the win-rate denominator (`total_positions`) counts every
token with at least one classified leg, BUY or SELL — not only tokens with a
BUY leg; a token is a win exactly when it has a buy (`buySol > 0`) and its
realized PnL is strictly positive; the win rate is the 3-digit rounding of
`wins / totalPositions`. -/
theorem c2_win_rate_denominator_counts_all_tokens (wallet : String)
    (mints : List String) (txs : List HeliusTx) (r : PnlReport)
    (h : calculate_wallet_pnl wallet mints (some txs) = some r) :
    r.totalPositions = (replayTxs wallet txs).tokenPnl.length
    ∧ r.wins = ((replayTxs wallet txs).tokenPnl.filter (fun e =>
        decide (0 < e.2.buySol ∧ 0 < e.2.sellSol - e.2.buySol))).length
    ∧ r.winRate = pyRound
        (if 0 < r.totalPositions then (r.wins : ℚ) / (r.totalPositions : ℚ)
         else 0) 3 := by
  rw [calculate_wallet_pnl_eq_some h]
  refine ⟨rfl, ?_, ?_⟩
  · simp only [buildReport]
    rw [buildRows_wins]
  · simp only [buildReport]

/-- Witness for C2 (amended): `tWallet` has one position, one win, win rate
`round(1/1, 3) = 1`. -/
theorem c2_win_rate_denominator_counts_all_tokens_witness :
    tPnl.totalPositions = (replayTxs tWallet [tBuyTx, tSellTx]).tokenPnl.length
    ∧ tPnl.wins = ((replayTxs tWallet [tBuyTx, tSellTx]).tokenPnl.filter (fun e =>
        decide (0 < e.2.buySol ∧ 0 < e.2.sellSol - e.2.buySol))).length
    ∧ tPnl.winRate = pyRound
        (if 0 < tPnl.totalPositions then (tPnl.wins : ℚ) / (tPnl.totalPositions : ℚ)
         else 0) 3 :=
  c2_win_rate_denominator_counts_all_tokens tWallet [] [tBuyTx, tSellTx] tPnl
    (by with_unfolding_all decide)

/-- C2 counterexample: a wallet whose only classified leg is a SELL of token
`T2`. The claim says the win-rate denominator excludes such a token (0
positions), but the code reports `total_positions = 1`. -/
theorem c2_counterexample :
    (calculate_wallet_pnl "W2" [] (some [cSellOnlyTx2])).map PnlReport.totalPositions = some 1
    ∧ specBuyTokenCount (replayTxs "W2" [cSellOnlyTx2]) = 0
    ∧ (calculate_wallet_pnl "W2" [] (some [cSellOnlyTx2])).map PnlReport.totalPositions ≠
        some (specBuyTokenCount (replayTxs "W2" [cSellOnlyTx2])) :=
  ⟨by with_unfolding_all decide, by with_unfolding_all decide, by with_unfolding_all decide⟩

/-- C5: fewer than 2 mints are rejected with the input-error result before
any provider interaction: the fetch trace is empty. -/
theorem c5_input_error_before_any_fetch (mints : List String)
    (holders : String → List String)
    (activity : String → Option (List HeliusTx)) (mw mp : ℚ)
    (h : mints.length < 2) :
    find_smart_money mints holders activity mw mp = (SMResult.inputError, []) := by
  simp [find_smart_money, h]

/-- Witness for C5: a single mint yields the input error and no fetches. -/
theorem c5_input_error_before_any_fetch_witness :
    find_smart_money ["OnlyOneMint"] tHolders tActivity (3/5) 10 =
      (SMResult.inputError, []) :=
  c5_input_error_before_any_fetch ["OnlyOneMint"] tHolders tActivity (3/5) 10
    (by with_unfolding_all decide)

/-- C6: `calculate_wallet_pnl` returns the null result on a provider failure
(`none` response) and on zero classified trades; a wallet's result depends
only on its own activity response, so a failing response for one wallet
leaves every other wallet's result unchanged; and as long as the
intersection is nonempty, `find_smart_money` still returns a report whatever
the activity provider does — the batch is never aborted. -/
theorem c6_null_result_and_failure_isolation :
    (∀ (wallet : String) (mints : List String),
      calculate_wallet_pnl wallet mints none = none)
    ∧ (∀ (wallet : String) (mints : List String) (txs : List HeliusTx),
        (replayTxs wallet txs).trades = [] →
        calculate_wallet_pnl wallet mints (some txs) = none)
    ∧ (∀ (mints : List String)
          (act act' : String → Option (List HeliusTx)) (w : String),
        (∀ w', w' ≠ w → act' w' = act w') →
        ∀ w', w' ≠ w →
          calculate_wallet_pnl w' mints (act' w') =
            calculate_wallet_pnl w' mints (act w'))
    ∧ (∀ (mints : List String) (holders : String → List String)
          (activity : String → Option (List HeliusTx)) (mw mp : ℚ),
        ¬ mints.length < 2 → smCommon mints holders ≠ [] →
        ∃ r, (find_smart_money mints holders activity mw mp).1 =
          SMResult.report r) := by
  refine ⟨fun _ _ => rfl, ?_, ?_, ?_⟩
  · intro wallet mints txs h
    by_cases he : txs = []
    · simp [calculate_wallet_pnl, he]
    · simp [calculate_wallet_pnl, he, h]
  · intro mints act act' w hagree w' hne
    rw [hagree w' hne]
  · intro mints holders activity mw mp hlen hcom
    refine ⟨{ mintsAnalyzed := smMints mints,
              totalCommonWallets := (smCommon mints holders).length,
              qualifiedWallets :=
                (smSorted mints holders activity mw mp).take 10,
              minWinRate := mw, minPnlSol := mp }, ?_⟩
    simp [find_smart_money, hlen, hcom]

/-- Witness for C6: concrete failure and no-trade inputs give `none`; a
response change for wallet `W2` leaves `tWallet`'s result untouched; with
every activity fetch failing the pipeline still produces a report. -/
theorem c6_null_result_and_failure_isolation_witness :
    calculate_wallet_pnl "W3" [] none = none
    ∧ calculate_wallet_pnl "W3" [] (some [cAirdropTx]) = none
    ∧ calculate_wallet_pnl tWallet ["MA", "MB"]
        ((fun w => if w = "W2" then none else tActivity w) tWallet)
        = calculate_wallet_pnl tWallet ["MA", "MB"] (tActivity tWallet)
    ∧ ∃ r, (find_smart_money ["MA", "MB"] tHolders (fun _ => none) (3/5) 10).1 =
        SMResult.report r :=
  ⟨c6_null_result_and_failure_isolation.1 "W3" [],
   c6_null_result_and_failure_isolation.2.1 "W3" [] [cAirdropTx] (by with_unfolding_all decide),
   c6_null_result_and_failure_isolation.2.2.1 ["MA", "MB"] tActivity
     (fun w => if w = "W2" then none else tActivity w) "W2"
     (fun w' h => if_neg h) tWallet (by with_unfolding_all decide),
   c6_null_result_and_failure_isolation.2.2.2 ["MA", "MB"] tHolders
     (fun _ => none) (3/5) 10 (by with_unfolding_all decide) (by with_unfolding_all decide)⟩

/-- C8: the tracked holding of every token is nonnegative after every BUY
and SELL update (a SELL clamps at zero), and hence throughout the replay,
for any feed with nonnegative token amounts. -/
theorem c8_holdings_clamped_nonnegative :
    (∀ (wallet : String) (sc : ℚ) (ts : ℤ) (st : ReplayState)
        (tr : TokenTransfer),
      0 ≤ tr.tokenAmount → (∀ p ∈ st.holdings, 0 ≤ p.2) →
      ∀ p ∈ (processTransfer wallet sc ts st tr).holdings, 0 ≤ p.2)
    ∧ (∀ (wallet : String) (txs : List HeliusTx),
        (∀ tx ∈ txs, ∀ tr ∈ tx.tokenTransfers, 0 ≤ tr.tokenAmount) →
        ∀ p ∈ (replayTxs wallet txs).holdings, 0 ≤ p.2) :=
  ⟨processTransfer_holdings_nonneg, replayTxs_holdings_nonneg⟩

/-- Witness for C8: wallet `W` buys 5 and sells 10 units of `T`; the tracked
holding clamps at zero rather than going negative. -/
theorem c8_holdings_clamped_nonnegative_witness :
    0 ≤ (((replayTxs "W" [cClampBuyTx, cClampSellTx]).holdings.headD ("", 0)).2) :=
  c8_holdings_clamped_nonnegative.2 "W" [cClampBuyTx, cClampSellTx]
    (by with_unfolding_all decide) _ (by with_unfolding_all decide)

theorem lookupA_appendMint_self (w m : String) :
    ∀ d : List (String × List String),
      lookupA (appendMint d w m) w = some ((lookupA d w).getD [] ++ [m])
  | [] => by simp [appendMint, lookupA]
  | (k, v) :: rest => by
      by_cases hk : k = w
      · subst hk
        simp [appendMint, lookupA]
      · simp [appendMint, lookupA, hk, lookupA_appendMint_self w m rest]

theorem lookupA_appendMint_other {w u : String} (hwu : ¬ w = u) (m : String) :
    ∀ d : List (String × List String),
      lookupA (appendMint d w m) u = lookupA d u
  | [] => by simp [appendMint, lookupA, hwu]
  | (k, v) :: rest => by
      by_cases hk : k = w
      · subst hk
        simp [appendMint, lookupA, hwu]
      · by_cases hku : k = u
        · subst hku
          simp [appendMint, lookupA, hk]
        · simp [appendMint, lookupA, hk, hku,
            lookupA_appendMint_other hwu m rest]

theorem addHolding_excluded {w : String} (d : List (String × List String))
    (m : String) (hx : excludedW w) : addHolding d w m = d := by
  unfold addHolding
  exact if_pos hx

theorem lookupA_addHolding (d : List (String × List String)) (w' m w : String) :
    lookupA (addHolding d w' m) w =
      if w' = w ∧ ¬ excludedW w then some ((lookupA d w).getD [] ++ [m])
      else lookupA d w := by
  by_cases hex : excludedW w'
  · rw [addHolding_excluded d m hex]
    have hcond : ¬ (w' = w ∧ ¬ excludedW w) := by
      rintro ⟨rfl, hne⟩
      exact hne hex
    rw [if_neg hcond]
  · have hstep : addHolding d w' m = appendMint d w' m := by
      unfold addHolding
      exact if_neg hex
    rw [hstep]
    by_cases hw : w' = w
    · subst hw
      rw [lookupA_appendMint_self, if_pos ⟨rfl, hex⟩]
    · rw [lookupA_appendMint_other hw m d, if_neg (fun hc => hw hc.1)]

theorem foldl_addHolding_getD {w : String} (hx : ¬ excludedW w) :
    ∀ (l : List (String × String)) (d : List (String × List String)),
      (lookupA (l.foldl (fun d' e => addHolding d' e.1 e.2) d) w).getD [] =
        (lookupA d w).getD [] ++
          ((l.filter (fun e => decide (e.1 = w))).map Prod.snd)
  | [], d => by simp
  | e :: t, d => by
      rw [List.foldl_cons, foldl_addHolding_getD hx t _]
      by_cases he : e.1 = w
      · have h1 : lookupA (addHolding d e.1 e.2) w =
            some ((lookupA d w).getD [] ++ [e.2]) := by
          rw [lookupA_addHolding]
          exact if_pos ⟨he, hx⟩
        rw [h1]
        simp [he, List.append_assoc]
      · have h1 : lookupA (addHolding d e.1 e.2) w = lookupA d w := by
          rw [lookupA_addHolding]
          exact if_neg (fun hc => he hc.1)
        rw [h1]
        simp [he]

theorem foldl_addHolding_isSome {w : String} (hx : ¬ excludedW w) :
    ∀ (l : List (String × String)) (d : List (String × List String)),
      (lookupA (l.foldl (fun d' e => addHolding d' e.1 e.2) d) w).isSome =
        ((lookupA d w).isSome || l.any (fun e => decide (e.1 = w)))
  | [], d => by simp
  | e :: t, d => by
      rw [List.foldl_cons, foldl_addHolding_isSome hx t _]
      by_cases he : e.1 = w
      · have h1 : lookupA (addHolding d e.1 e.2) w =
            some ((lookupA d w).getD [] ++ [e.2]) := by
          rw [lookupA_addHolding]
          exact if_pos ⟨he, hx⟩
        rw [h1]
        simp [he]
      · have h1 : lookupA (addHolding d e.1 e.2) w = lookupA d w := by
          rw [lookupA_addHolding]
          exact if_neg (fun hc => he hc.1)
        rw [h1]
        simp [he]

theorem lookupA_foldl_addHolding_excluded {w : String} (hx : excludedW w) :
    ∀ (l : List (String × String)) (d : List (String × List String)),
      lookupA (l.foldl (fun d' e => addHolding d' e.1 e.2) d) w = lookupA d w
  | [], _ => rfl
  | e :: t, d => by
      rw [List.foldl_cons, lookupA_foldl_addHolding_excluded hx t _,
        lookupA_addHolding]
      exact if_neg (fun hc => hc.2 hx)

theorem foldl_foldl_addHolding :
    ∀ (ps : List (String × List String)) (d : List (String × List String)),
      ps.foldl (fun d' p => p.2.foldl (fun d'' w => addHolding d'' w p.1) d') d =
        (ps.flatMap (fun p => p.2.map (fun w => (w, p.1)))).foldl
          (fun d' e => addHolding d' e.1 e.2) d
  | [], _ => rfl
  | p :: t, d => by
      simp only [List.foldl_cons, List.flatMap_cons, List.foldl_append,
        List.foldl_map]
      exact foldl_foldl_addHolding t _

theorem walletToMints_eq (hl : List (List String)) (mints : List String) :
    walletToMints hl mints =
      (holderEvents hl mints).foldl (fun d e => addHolding d e.1 e.2) [] := by
  unfold walletToMints holderEvents
  exact foldl_foldl_addHolding _ _

theorem walletToMints_getD {w : String} (hx : ¬ excludedW w)
    (hl : List (List String)) (mints : List String) :
    (lookupA (walletToMints hl mints) w).getD [] =
      ((holderEvents hl mints).filter (fun e => decide (e.1 = w))).map Prod.snd := by
  rw [walletToMints_eq, foldl_addHolding_getD hx]
  simp [lookupA]

theorem walletToMints_isSome {w : String} (hx : ¬ excludedW w)
    (hl : List (List String)) (mints : List String) :
    (lookupA (walletToMints hl mints) w).isSome =
      (holderEvents hl mints).any (fun e => decide (e.1 = w)) := by
  rw [walletToMints_eq, foldl_addHolding_isSome hx]
  simp [lookupA]

theorem walletToMints_excluded {w : String} (hx : excludedW w)
    (hl : List (List String)) (mints : List String) :
    lookupA (walletToMints hl mints) w = none := by
  rw [walletToMints_eq, lookupA_foldl_addHolding_excluded hx]
  rfl

theorem filter_map_mk_eq_nil {w m : String} :
    ∀ hs : List String, w ∉ hs →
      (hs.map (fun w' => (w', m))).filter (fun e => decide (e.1 = w)) = []
  | [], _ => rfl
  | a :: t, hw => by
      have ha : ¬ a = w := fun h => hw (h ▸ List.mem_cons_self a t)
      simp only [List.map_cons, List.filter_cons, decide_eq_true_eq]
      rw [if_neg (by simpa using ha)]
      exact filter_map_mk_eq_nil t (fun h => hw (List.mem_cons_of_mem a h))

theorem filter_map_mk {w m : String} :
    ∀ hs : List String, hs.Nodup →
      ((hs.map (fun w' => (w', m))).filter
          (fun e => decide (e.1 = w))).map Prod.snd =
        if w ∈ hs then [m] else []
  | [], _ => by simp
  | a :: t, hnd => by
      rcases List.nodup_cons.mp hnd with ⟨ha, ht⟩
      by_cases haw : a = w
      · subst haw
        simp only [List.map_cons, List.filter_cons]
        rw [if_pos (by simp), filter_map_mk_eq_nil t ha]
        simp
      · have hwa : ¬ w = a := fun h => haw h.symm
        simp only [List.map_cons, List.filter_cons]
        rw [if_neg (by simpa using haw), filter_map_mk t ht]
        simp [List.mem_cons, hwa]

theorem holderEvents_filter_map (hl : List (List String)) (mints : List String)
    (w : String) (hnd : ∀ l ∈ hl, l.Nodup) :
    ((holderEvents hl mints).filter (fun e => decide (e.1 = w))).map Prod.snd =
      heldMintsOf hl mints w := by
  unfold holderEvents heldMintsOf
  have hps : ∀ p ∈ mints.zip hl, (p.2 : List String).Nodup :=
    fun p hp => hnd p.2 (List.of_mem_zip hp).2
  revert hps
  generalize mints.zip hl = ps
  intro hps
  induction ps with
  | nil => simp
  | cons p t ih =>
      simp only [List.flatMap_cons, List.filter_append, List.map_append,
        List.filterMap_cons]
      rw [filter_map_mk p.2 (hps p (List.mem_cons_self _ _))]
      have iht := ih (fun q hq => hps q (List.mem_cons_of_mem _ hq))
      by_cases hw : w ∈ p.2
      · simp only [hw, if_pos, if_true]
        rw [iht]
        rfl
      · simp only [hw, if_neg, if_false]
        rw [iht]
        simp

theorem map_fst_appendMint (w m : String) :
    ∀ d : List (String × List String),
      (appendMint d w m).map Prod.fst =
        if w ∈ d.map Prod.fst then d.map Prod.fst
        else d.map Prod.fst ++ [w]
  | [] => by simp [appendMint]
  | (k, v) :: rest => by
      by_cases hk : k = w
      · subst hk
        simp [appendMint]
      · have hwk : ¬ w = k := fun h => hk h.symm
        simp only [appendMint, hk, if_false, List.map_cons]
        rw [map_fst_appendMint w m rest]
        by_cases hw : w ∈ rest.map Prod.fst
        · simp [hw, hwk]
        · simp [hw, hwk]

theorem map_fst_addHolding (d : List (String × List String)) (w m : String) :
    (addHolding d w m).map Prod.fst =
      if excludedW w ∨ w ∈ d.map Prod.fst then d.map Prod.fst
      else d.map Prod.fst ++ [w] := by
  by_cases hex : excludedW w
  · rw [addHolding_excluded _ _ hex, if_pos (Or.inl hex)]
  · have h : addHolding d w m = appendMint d w m := by
      unfold addHolding
      exact if_neg hex
    rw [h, map_fst_appendMint]
    by_cases hw : w ∈ d.map Prod.fst
    · rw [if_pos hw, if_pos (Or.inr hw)]
    · rw [if_neg hw, if_neg (fun hc => hc.elim hex hw)]

theorem map_fst_foldl_addHolding :
    ∀ (l : List (String × String)) (d : List (String × List String)),
      ((l.foldl (fun d' e => addHolding d' e.1 e.2) d).map Prod.fst) =
        l.foldl
          (fun acc e => if excludedW e.1 ∨ e.1 ∈ acc then acc else acc ++ [e.1])
          (d.map Prod.fst)
  | [], _ => rfl
  | e :: t, d => by
      rw [List.foldl_cons, List.foldl_cons, map_fst_foldl_addHolding t _,
        map_fst_addHolding]

theorem nodup_foldl_firstSeen :
    ∀ (l : List (String × String)) (acc : List String), acc.Nodup →
      (l.foldl
        (fun acc e => if excludedW e.1 ∨ e.1 ∈ acc then acc else acc ++ [e.1])
        acc).Nodup
  | [], _, h => h
  | e :: t, acc, h => by
      rw [List.foldl_cons]
      by_cases hc : excludedW e.1 ∨ e.1 ∈ acc
      · rw [if_pos hc]
        exact nodup_foldl_firstSeen t acc h
      · rw [if_neg hc]
        refine nodup_foldl_firstSeen t _ ?_
        have hni : e.1 ∉ acc := fun hm => hc (Or.inr hm)
        simp [List.nodup_append, h, hni]

theorem nodup_keys_walletToMints (hl : List (List String)) (mints : List String) :
    ((walletToMints hl mints).map Prod.fst).Nodup := by
  rw [walletToMints_eq, map_fst_foldl_addHolding]
  exact nodup_foldl_firstSeen _ [] (by simp)

theorem foldl_firstSeen_no_excluded :
    ∀ (l : List (String × String)) (acc : List String),
      (∀ e ∈ l, ¬ excludedW e.1) →
      l.foldl
        (fun acc e => if excludedW e.1 ∨ e.1 ∈ acc then acc else acc ++ [e.1])
        acc =
      (l.map Prod.fst).foldl
        (fun acc v => if v ∈ acc then acc else acc ++ [v]) acc
  | [], _, _ => rfl
  | e :: t, acc, hok => by
      have hex : ¬ excludedW e.1 := hok e (List.mem_cons_self _ _)
      have hrest : ∀ e' ∈ t, ¬ excludedW e'.1 :=
        fun e' he' => hok e' (List.mem_cons_of_mem _ he')
      rw [List.map_cons, List.foldl_cons, List.foldl_cons]
      by_cases hm : e.1 ∈ acc
      · rw [if_pos (Or.inr hm), if_pos hm]
        exact foldl_firstSeen_no_excluded t acc hrest
      · rw [if_neg (fun hc => hc.elim hex hm), if_neg hm]
        exact foldl_firstSeen_no_excluded t _ hrest

theorem map_fst_holderEvents (hl : List (List String)) (mints : List String) :
    (holderEvents hl mints).map Prod.fst = walletStream hl mints := by
  unfold holderEvents walletStream
  rw [List.map_flatMap]
  congr 1
  funext p
  rw [List.map_map]
  rw [show ((Prod.fst ∘ fun w => (w, p.1)) : String → String) = id from
    funext (fun w => rfl)]
  exact List.map_id _

theorem map_fst_walletToMints_firstSeen (hl : List (List String))
    (mints : List String) (hok : ∀ l ∈ hl, ∀ w ∈ l, ¬ excludedW w) :
    (walletToMints hl mints).map Prod.fst =
      firstSeenKeys (walletStream hl mints) := by
  have hev : ∀ e ∈ holderEvents hl mints, ¬ excludedW e.1 := by
    intro e he
    unfold holderEvents at he
    rcases List.mem_flatMap.mp he with ⟨p, hp, hme⟩
    rcases List.mem_map.mp hme with ⟨w', hw', rfl⟩
    exact hok p.2 (List.of_mem_zip hp).2 w' hw'
  rw [walletToMints_eq, map_fst_foldl_addHolding, List.map_nil,
    foldl_firstSeen_no_excluded _ [] hev, map_fst_holderEvents]
  rfl

/-- C3: on deduplicated holder lists of distinct mints containing no
excluded/short addresses, `find_intersection` (i) maps each output wallet to
exactly the mints whose holder list contains it, keeping exactly the wallets
appearing in at least `min_appearances` distinct tokens' lists (for any
positive threshold), and (ii) orders the output by number of tokens held,
descending, tie-broken by first-seen order: the pre-sort key order is the
order of first occurrence in the scan, and the sort is stable on it. -/
theorem c3_intersection_characterization (holder_lists : List (List String))
    (mints : List String) (k : ℕ)
    (hnd : ∀ l ∈ holder_lists, l.Nodup) (hmnd : mints.Nodup)
    (hok : ∀ l ∈ holder_lists, ∀ w ∈ l, ¬ excludedW w) :
    (∀ w ml, (w, ml) ∈ find_intersection holder_lists mints k →
        ml = heldMintsOf holder_lists mints w ∧ k ≤ ml.length)
    ∧ (∀ w : String, 1 ≤ k → k ≤ (heldMintsOf holder_lists mints w).length →
        (w, heldMintsOf holder_lists mints w) ∈
          find_intersection holder_lists mints k)
    ∧ (find_intersection holder_lists mints k).Pairwise
        (fun a b => b.2.length ≤ a.2.length)
    ∧ (∀ v : ℚ, (find_intersection holder_lists mints k).filter
          (fun e => decide ((e.2.length : ℚ) = v)) =
        ((walletToMints holder_lists mints).filter
          (fun e => decide (k ≤ e.2.length))).filter
          (fun e => decide ((e.2.length : ℚ) = v)))
    ∧ (walletToMints holder_lists mints).map Prod.fst =
        firstSeenKeys (walletStream holder_lists mints) := by
  have hfi : find_intersection holder_lists mints k =
      sortByKeyDesc (fun e => (e.2.length : ℚ))
        ((walletToMints holder_lists mints).filter
          (fun e => decide (k ≤ e.2.length))) := rfl
  refine ⟨?_, ?_, ?_, ?_, map_fst_walletToMints_firstSeen _ _ hok⟩
  · intro w ml hmem
    rw [hfi] at hmem
    have hcm := (sortByKeyDesc_perm _ _).mem_iff.mp hmem
    rcases List.mem_filter.mp hcm with ⟨hwtm, hlen⟩
    have hklen : k ≤ ml.length := by simpa using hlen
    have hx : ¬ excludedW w := by
      intro hex
      have hv := walletToMints_excluded hex holder_lists mints
      have hkmem : w ∈ (walletToMints holder_lists mints).map Prod.fst :=
        List.mem_map.mpr ⟨(w, ml), hwtm, rfl⟩
      rw [← lookupA_isSome_iff] at hkmem
      rw [hv] at hkmem
      simp at hkmem
    have hlk : lookupA (walletToMints holder_lists mints) w = some ml :=
      mem_lookupA (nodup_keys_walletToMints _ _) hwtm
    have hml : ml = heldMintsOf holder_lists mints w := by
      have hg := walletToMints_getD hx holder_lists mints
      rw [hlk] at hg
      simp only [Option.getD_some] at hg
      rw [hg, holderEvents_filter_map _ _ _ hnd]
    exact ⟨hml, hklen⟩
  · intro w hk1 hk2
    have hne : heldMintsOf holder_lists mints w ≠ [] := by
      intro h0
      rw [h0] at hk2
      simp at hk2
      omega
    obtain ⟨x, hx⟩ := List.exists_mem_of_ne_nil _ hne
    unfold heldMintsOf at hx
    rcases List.mem_filterMap.mp hx with ⟨p, hp, hfp⟩
    have hwp : w ∈ p.2 := by
      by_contra hc
      rw [if_neg hc] at hfp
      exact Option.noConfusion hfp
    have hx2 : ¬ excludedW w := hok p.2 (List.of_mem_zip hp).2 w hwp
    have hevmem : (w, p.1) ∈ holderEvents holder_lists mints := by
      unfold holderEvents
      exact List.mem_flatMap.mpr ⟨p, hp, List.mem_map.mpr ⟨w, hwp, rfl⟩⟩
    have hany : (holderEvents holder_lists mints).any
        (fun e => decide (e.1 = w)) = true :=
      List.any_eq_true.mpr ⟨(w, p.1), hevmem, by simp⟩
    have hsome : (lookupA (walletToMints holder_lists mints) w).isSome = true := by
      rw [walletToMints_isSome hx2, hany]
    obtain ⟨v, hv⟩ := Option.isSome_iff_exists.mp hsome
    have hveq : v = heldMintsOf holder_lists mints w := by
      have hg := walletToMints_getD hx2 holder_lists mints
      rw [hv] at hg
      simp only [Option.getD_some] at hg
      rw [hg, holderEvents_filter_map _ _ _ hnd]
    have hmemw : (w, v) ∈ walletToMints holder_lists mints := lookupA_mem hv
    have hcm : (w, v) ∈ (walletToMints holder_lists mints).filter
        (fun e => decide (k ≤ e.2.length)) := by
      refine List.mem_filter.mpr ⟨hmemw, ?_⟩
      simp only [decide_eq_true_eq]
      rw [hveq]
      exact hk2
    rw [hfi]
    have hfin := (sortByKeyDesc_perm
      (fun e : String × List String => (e.2.length : ℚ)) _).mem_iff.mpr hcm
    rw [hveq] at hfin
    exact hfin
  · rw [hfi]
    have hp := sortByKeyDesc_pairwise
      (fun e : String × List String => (e.2.length : ℚ))
      ((walletToMints holder_lists mints).filter
        (fun e => decide (k ≤ e.2.length)))
    exact hp.imp (fun h => Nat.cast_le.mp h)
  · intro v
    rw [hfi]
    exact sortByKeyDesc_filter _ v _

/-- Witness for C3: with holder lists `[[tWallet, WalletB], [tWallet]]` for
mints T1, T2 and threshold 2, `tWallet` (in both lists) is keyed to exactly
`[T1, T2]`, and `WalletB` (in one list only) is excluded: the output keys are
exactly `[tWallet]`. -/
theorem c3_intersection_characterization_witness :
    (tWallet, ["T1", "T2"]) ∈
      find_intersection [[tWallet, "WalletBBBBBBBBBBBBBBBBBBBBBBBBBBBB"],
        [tWallet]] ["T1", "T2"] 2
    ∧ (find_intersection [[tWallet, "WalletBBBBBBBBBBBBBBBBBBBBBBBBBBBB"],
        [tWallet]] ["T1", "T2"] 2).map Prod.fst = [tWallet] := by
  have h := c3_intersection_characterization
    [[tWallet, "WalletBBBBBBBBBBBBBBBBBBBBBBBBBBBB"], [tWallet]] ["T1", "T2"] 2
    (by with_unfolding_all decide) (by with_unfolding_all decide)
    (by with_unfolding_all decide)
  refine ⟨?_, by with_unfolding_all decide⟩
  have h2 := h.2.1 tWallet (by decide) (by with_unfolding_all decide)
  have h3 : heldMintsOf [[tWallet, "WalletBBBBBBBBBBBBBBBBBBBBBBBBBBBB"],
      [tWallet]] ["T1", "T2"] tWallet = ["T1", "T2"] := by
    with_unfolding_all decide
  rwa [h3] at h2

/-- C7: a wallet in the static excluded-program set never appears as a key
of the intersection output, whatever the holder lists contain. -/
theorem c7_excluded_program_never_in_output (holder_lists : List (List String))
    (mints : List String) (k : ℕ) (w : String) (hw : w ∈ EXCLUDED_PROGRAMS) :
    ∀ ml, (w, ml) ∉ find_intersection holder_lists mints k := by
  intro ml hmem
  have hfi : find_intersection holder_lists mints k =
      sortByKeyDesc (fun e => (e.2.length : ℚ))
        ((walletToMints holder_lists mints).filter
          (fun e => decide (k ≤ e.2.length))) := rfl
  rw [hfi] at hmem
  have h1 := (sortByKeyDesc_perm _ _).mem_iff.mp hmem
  have h2 := (List.mem_filter.mp h1).1
  have h3 : w ∈ (walletToMints holder_lists mints).map Prod.fst :=
    List.mem_map.mpr ⟨(w, ml), h2, rfl⟩
  rw [← lookupA_isSome_iff] at h3
  rw [walletToMints_excluded (Or.inr hw)] at h3
  simp at h3

/-- Witness for C7: the wrapped-SOL program address is in both holder lists
yet never keys the intersection output. -/
theorem c7_excluded_program_never_in_output_witness :
    ("So11111111111111111111111111111111111111112", ["T1", "T2"]) ∉
      find_intersection [["So11111111111111111111111111111111111111112"],
        ["So11111111111111111111111111111111111111112"]] ["T1", "T2"] 2 :=
  c7_excluded_program_never_in_output _ _ 2 _ (by decide) ["T1", "T2"]

theorem find_smart_money_report_eq {mints : List String}
    {holders : String → List String}
    {activity : String → Option (List HeliusTx)} {mw mp : ℚ} {r : SMReport}
    (h : (find_smart_money mints holders activity mw mp).1 = SMResult.report r) :
    r = { mintsAnalyzed := smMints mints,
          totalCommonWallets := (smCommon mints holders).length,
          qualifiedWallets := (smSorted mints holders activity mw mp).take 10,
          minWinRate := mw, minPnlSol := mp } := by
  simp only [find_smart_money] at h
  split_ifs at h
  all_goals
    first
      | exact (SMResult.report.inj h).symm
      | exact absurd h (by simp)

/-- C4: the qualified-wallet list of the report is the stable descending
sort by realized PnL of exactly the qualified entries (the non-null per-
wallet PnL results passing both thresholds, in candidate order), truncated
to the top 10: it is a prefix of length at most 10 of a permutation of the
qualified entries whose PnL keys are non-increasing and whose entries of any
given PnL value keep their original relative order (stable sort). -/
theorem c4_qualified_sorted_truncated (mints : List String)
    (holders : String → List String)
    (activity : String → Option (List HeliusTx)) (mw mp : ℚ) (r : SMReport)
    (h : (find_smart_money mints holders activity mw mp).1 = SMResult.report r) :
    ∃ full : List QualifiedEntry,
      r.qualifiedWallets = full.take 10
      ∧ full.Perm (smQualified mints holders activity mw mp)
      ∧ full.Pairwise (fun a b => b.pnl.totalPnlSol ≤ a.pnl.totalPnlSol)
      ∧ ∀ v : ℚ, full.filter (fun e => decide (e.pnl.totalPnlSol = v)) =
          (smQualified mints holders activity mw mp).filter
            (fun e => decide (e.pnl.totalPnlSol = v)) := by
  refine ⟨smSorted mints holders activity mw mp, ?_, ?_, ?_, ?_⟩
  · rw [find_smart_money_report_eq h]
  · exact sortByKeyDesc_perm _ _
  · exact sortByKeyDesc_pairwise _ _
  · exact fun v => sortByKeyDesc_filter _ v _

/-- Witness for C4: the concrete two-mint scenario produces the report
`tReport`, whose qualified list satisfies the filter/sort/truncate
characterization. -/
theorem c4_qualified_sorted_truncated_witness :
    ∃ full : List QualifiedEntry,
      tReport.qualifiedWallets = full.take 10
      ∧ full.Perm (smQualified ["MA", "MB"] tHolders tActivity (3/5) 10)
      ∧ full.Pairwise (fun a b => b.pnl.totalPnlSol ≤ a.pnl.totalPnlSol)
      ∧ ∀ v : ℚ, full.filter (fun e => decide (e.pnl.totalPnlSol = v)) =
          (smQualified ["MA", "MB"] tHolders tActivity (3/5) 10).filter
            (fun e => decide (e.pnl.totalPnlSol = v)) :=
  c4_qualified_sorted_truncated ["MA", "MB"] tHolders tActivity (3/5) 10
    tReport (by with_unfolding_all decide)

/-- C9: whatever the input, every wallet in the report's qualified list is
among the first 30 wallets of the intersection (in its token-count-
descending order) — a wallet beyond the first 30 can never appear — while
the reported total-common-wallets counter counts the full intersection. -/
theorem c9_only_first_thirty_wallets (mints : List String)
    (holders : String → List String)
    (activity : String → Option (List HeliusTx)) (mw mp : ℚ) (r : SMReport)
    (h : (find_smart_money mints holders activity mw mp).1 = SMResult.report r) :
    r.totalCommonWallets = (smCommon mints holders).length
    ∧ ∀ e ∈ r.qualifiedWallets,
        e.wallet ∈ ((smCommon mints holders).map Prod.fst).take 30 := by
  rw [find_smart_money_report_eq h]
  refine ⟨rfl, ?_⟩
  intro e he
  have h1 : e ∈ smSorted mints holders activity mw mp :=
    List.mem_of_mem_take he
  have h2 : e ∈ smQualified mints holders activity mw mp :=
    (sortByKeyDesc_perm _ _).mem_iff.mp h1
  unfold smQualified at h2
  rcases List.mem_filterMap.mp h2 with ⟨p, hp, hfp⟩
  have hw : e.wallet = p.1 := by
    cases hpv : p.2 with
    | none =>
        rw [hpv] at hfp
        exact absurd hfp (by simp)
    | some pr =>
        rw [hpv] at hfp
        simp only [] at hfp
        by_cases hq : mw ≤ pr.winRate ∧ mp ≤ pr.totalPnlSol
        · rw [if_pos hq] at hfp
          rw [← Option.some.inj hfp]
        · rw [if_neg hq] at hfp
          exact absurd hfp (by simp)
  rw [hw]
  exact (List.of_mem_zip hp).1

/-- Witness for C9: in the concrete two-mint scenario the report counts the
single common wallet and its one qualified wallet is among the first 30
intersection keys. -/
theorem c9_only_first_thirty_wallets_witness :
    tReport.totalCommonWallets = (smCommon ["MA", "MB"] tHolders).length
    ∧ tWallet ∈ ((smCommon ["MA", "MB"] tHolders).map Prod.fst).take 30 := by
  have h := c9_only_first_thirty_wallets ["MA", "MB"] tHolders tActivity
    (3/5) 10 tReport (by with_unfolding_all decide)
  exact ⟨h.1, h.2 ⟨tWallet, ["MA", "MB"], tPnl⟩ (by with_unfolding_all decide)⟩

theorem find_smart_money_congr (mints mints' : List String)
    (holders : String → List String)
    (activity : String → Option (List HeliusTx)) (mw mp : ℚ)
    (hm : smMints mints = smMints mints')
    (h1 : ¬ mints.length < 2) (h2 : ¬ mints'.length < 2) :
    find_smart_money mints holders activity mw mp =
      find_smart_money mints' holders activity mw mp := by
  have hc : smCommon mints holders = smCommon mints' holders := by
    unfold smCommon
    rw [hm]
  have hwl : smWallets mints holders = smWallets mints' holders := by
    unfold smWallets
    rw [hc]
  have hpn : smPnls mints holders activity = smPnls mints' holders activity := by
    unfold smPnls
    rw [hwl, hm]
  have hq : smQualified mints holders activity mw mp =
      smQualified mints' holders activity mw mp := by
    unfold smQualified
    rw [hwl, hpn, hc]
  have hs : smSorted mints holders activity mw mp =
      smSorted mints' holders activity mw mp := by
    unfold smSorted
    rw [hq]
  unfold find_smart_money
  rw [if_neg h1, if_neg h2, hm, hc, hwl, hs]

/-- C10 counterexample: six mints whose holder fetches all come back empty.
The input is not rejected for its length, but the result is still the
`{"error": "No common wallets found..."}` dict (`SMResult.noCommon`), not a
report — so "find_smart_money does not return an error" is false as stated. -/
theorem c10_counterexample :
    (find_smart_money ["A", "B", "C", "D", "E", "F"] (fun _ => [])
      (fun _ => none) (3/5) 10).1 = SMResult.noCommon [0, 0, 0, 0, 0] := by
  with_unfolding_all decide

/-- C10 (amended): with more than 5 mints, `find_smart_money` never returns
the length input-error; it behaves exactly as if called on the first 5 mints
(so the whole computation uses only those), and any report it produces lists
exactly the first 5 mints as analyzed. It can, however, still return the
no-common-wallets error. -/
theorem c10_truncates_to_first_five (mints : List String)
    (holders : String → List String)
    (activity : String → Option (List HeliusTx)) (mw mp : ℚ)
    (h5 : 5 < mints.length) :
    find_smart_money mints holders activity mw mp =
      find_smart_money (mints.take 5) holders activity mw mp
    ∧ (find_smart_money mints holders activity mw mp).1 ≠ SMResult.inputError
    ∧ ∀ r, (find_smart_money mints holders activity mw mp).1 =
        SMResult.report r → r.mintsAnalyzed = mints.take 5 := by
  have h1 : ¬ mints.length < 2 := by omega
  have htk : (mints.take 5).length = 5 := by
    rw [List.length_take]
    omega
  have h2 : ¬ (mints.take 5).length < 2 := by omega
  have hsm : smMints mints = mints.take 5 := by
    unfold smMints
    rw [if_pos h5]
  have hsm2 : smMints (mints.take 5) = mints.take 5 := by
    unfold smMints
    rw [htk]
    simp
  refine ⟨find_smart_money_congr mints (mints.take 5) holders activity mw mp
    (by rw [hsm, hsm2]) h1 h2, ?_, ?_⟩
  · unfold find_smart_money
    rw [if_neg h1]
    split
    · simp
    · simp
  · intro r hr
    rw [find_smart_money_report_eq hr]
    exact hsm

/-- Witness for C10 (amended): a six-mint call equals the call on its first
five mints and is not the input error. -/
theorem c10_truncates_to_first_five_witness :
    find_smart_money ["MA", "MB", "X1", "X2", "X3", "X4"] tHolders tActivity
        (3/5) 10 =
      find_smart_money (["MA", "MB", "X1", "X2", "X3", "X4"].take 5) tHolders
        tActivity (3/5) 10
    ∧ (find_smart_money ["MA", "MB", "X1", "X2", "X3", "X4"] tHolders
        tActivity (3/5) 10).1 ≠ SMResult.inputError := by
  have h := c10_truncates_to_first_five ["MA", "MB", "X1", "X2", "X3", "X4"]
    tHolders tActivity (3/5) 10 (by decide)
  exact ⟨h.1, h.2.1⟩
